import Mathlib

/-!
# Verification of the `pipes` repository (cpuguy83/pipes)

Shallow embedding of the zero-copy transfer primitives (`splice`, `tee`),
the `PipeWriter.ReadFrom` / `PipeReader.WriteTo` bridge, the `OpenFifo`
flag handling, and the fan-out `Copier` (`doCopy`, `doTee`, `doSplice`,
`Add`, `run`), together with proofs of the specification claims.

The kernel is modelled as an oracle: a list of outcomes that successive
`unix.Splice`/`tee` system calls produce.  Machine integers (`int64`) are
modelled as `Int`; byte counts never approach 2^62 in the statements we
prove, matching the code's use of `1 << 62` as the "unbounded" sentinel.
-/

set_option autoImplicit false

/-- Error values observed by the code: `unix.EAGAIN`, `unix.EINTR`, `io.EOF`,
a context-cancellation error, and a family of other (fatal) errors. -/
inductive Err where
  | eagain
  | eintr
  | eof
  | canceled
  | other (code : Nat)
  deriving DecidableEq, Repr

/-- One outcome of a kernel `splice(2)`/`tee(2)` call, as offered by the
kernel oracle: move a chunk of `k` bytes (the kernel never moves more than
the requested length, see `spliceSys`), report would-block, report a signal
interruption, report end of input (0 bytes, no error), or fail with an
arbitrary error value. -/
inductive KStep where
  | chunk (k : Nat)
  | eagain
  | eintr
  | eof
  | fail (e : Err)
  deriving DecidableEq, Repr

/-- Semantics of one `unix.Splice`/`tee` call with requested length `req`:
the Go wrapper returns the moved byte count (`-1` on error) and an error
value.  A `chunk k` outcome moves `min k req` bytes: the kernel may move
fewer bytes than requested but never more. -/
def spliceSys (req : Int) (s : KStep) : Int × Option Err :=
  match s with
  | .chunk k => (min (k : Int) req, none)
  | .eagain => (-1, some .eagain)
  | .eintr => (-1, some .eintr)
  | .eof => (0, none)
  | .fail e => (-1, some e)

/-- The transfer for-loop shared by `splice` in `src/read_linux.go`
(lines 135-168) and the `rc.Read` callback of `splice` in
`src/pipes_linux.go` (lines 171-197); the two loops are line-for-line the
same: `for remain > 0 { n, err := unix.Splice(...); if n > 0 { copied += n;
if !noEnd { remain -= n } }; spliceErr = err; if err != nil { if err ==
unix.EINTR { continue }; return }; if n == 0 { return } }`.
Arguments: the kernel oracle, `remain`, `copied`, and the current value of
the `spliceErr` variable.  Returns `none` if the oracle is exhausted while
the loop still wants to issue a system call (the call would block forever),
otherwise `some (copied, remain, spliceErr)` at loop exit, paired with the
unconsumed part of the oracle. -/
def spliceCore (noEnd : Bool) : List KStep → Int → Int → Option Err →
    Option (Int × Int × Option Err) × List KStep
  | [], remain, copied, sErr =>
    if remain ≤ 0 then (some (copied, remain, sErr), []) else (none, [])
  | s :: rest, remain, copied, sErr =>
    if remain ≤ 0 then (some (copied, remain, sErr), s :: rest)
    else
      let n := (spliceSys remain s).1
      let e := (spliceSys remain s).2
      let copied' := if 0 < n then copied + n else copied
      let remain' := if 0 < n ∧ ¬noEnd then remain - n else remain
      if e = some Err.eintr then spliceCore noEnd rest remain' copied' (some Err.eintr)
      else if e ≠ none then (some (copied', remain', e), rest)
      else if n = 0 then (some (copied', remain', none), rest)
      else spliceCore noEnd rest remain' copied' none

/-- `splice` from `src/read_linux.go` lines 135-168: the descriptor-based
transfer helper.  `remain = 0` means unbounded (`noEnd`), replaced by the
`1 << 62` sentinel.  Returns the total bytes copied and the final
`spliceErr`, plus the unconsumed oracle. -/
def splice (ko : List KStep) (remain : Int) : Option (Int × Option Err) × List KStep :=
  let noEnd := remain = 0
  let r := if noEnd then (2 : Int) ^ 62 else remain
  match spliceCore noEnd ko r 0 none with
  | (none, rest) => (none, rest)
  | (some (c, _, e), rest) => (some (c, e), rest)

/-- Modelled from the spec: the `tee` helper called by `Copier.doTee` is not
present under `src/` (only its caller is).  Per spec §4.2, TeeTransfer has
"the same loop and budget semantics as RawTransfer" (§4.1), differing only
in that the source's kernel buffer is left intact — not observable in this
byte-count model — so it is the same loop as `splice`. -/
def tee (ko : List KStep) (remain : Int) : Option (Int × Option Err) × List KStep :=
  splice ko remain

/-- The `wc.Write` retry loop of `splice` in `src/pipes_linux.go` lines
161-216: run the inner transfer loop; the write callback reports done
(`true`) when `readErr != nil` (the modelled `rc.Read` returns `nil`), when
`remain == 0`, or when `spliceErr != unix.EAGAIN`; otherwise the runtime
waits for write readiness and invokes the callback again.  `fuel` bounds
the number of callback invocations; each invocation with a live budget
consumes at least one oracle entry, so `ko.length + 1` is always enough. -/
def spliceRawGo (noEnd : Bool) : Nat → List KStep → Int → Int → Option Err →
    Option (Int × Option Err)
  | 0, _, _, _, _ => none
  | fuel + 1, ko, remain, copied, sErr =>
    match spliceCore noEnd ko remain copied sErr with
    | (none, _) => none
    | (some (c, r, e), rest) =>
      if r = 0 then some (c, e)
      else if e = some Err.eagain then spliceRawGo noEnd fuel rest r c e
      else some (c, e)

/-- `splice` from `src/pipes_linux.go` lines 161-216 (renamed `spliceRaw`
here because the repository's variants give the descriptor-based helper the
same Go name): the `syscall.RawConn`-based splice used by
`PipeWriter.ReadFrom` and `PipeReader.WriteTo`.  Returns `none` when the
transfer never completes (oracle exhausted while waiting). -/
def spliceRaw (ko : List KStep) (remain : Int) : Option (Int × Option Err) :=
  let noEnd := remain = 0
  let r := if noEnd then (2 : Int) ^ 62 else remain
  spliceRawGo noEnd (ko.length + 1) ko r 0 none

/-- Which branch of `ReadFrom`/`WriteTo` produced the result: the
`LimitedReader`-zero fast path (lines 144-146), the zero-copy splice path,
or the buffered `io.Copy` fallback. -/
inductive RFPath where
  | fast
  | spliced
  | fallback
  deriving DecidableEq, Repr

/-- Result of `PipeWriter.ReadFrom` / `PipeReader.WriteTo`: byte count,
error, and which path produced it. -/
structure RFOut where
  n : Int
  err : Option Err
  path : RFPath
  deriving DecidableEq, Repr

/-- The `remain` derived in `PipeWriter.ReadFrom` lines 136-147: the
`io.LimitedReader` budget if the reader is one, else `0` (unbounded). -/
def rfRemain (lim : Option Int) : Int :=
  match lim with
  | some l => l
  | none => 0

/-- `PipeWriter.ReadFrom` from `src/pipes_linux.go` lines 135-159 together
with the `readFrom` wrapper (lines 218-231).  `lim = some l` models the
reader being an `io.LimitedReader` with `N = l`; `connOK` models both sides
exposing a working `syscall.RawConn` (when either `SyscallConn` fails the
code reaches `io.Copy` with a zero, errored splice result — the same
outcome as `connOK = false`); `fb` is the result of the `io.Copy(w.fd, r)`
fallback.  `handled` in the wrapper is `n > 0`; the splice result is
returned directly when `handled || err == nil`. -/
def readFromGo (lim : Option Int) (connOK : Bool) (ko : List KStep)
    (fb : Int × Option Err) : Option RFOut :=
  if lim = some 0 then some ⟨0, none, .fast⟩
  else if connOK then
    match spliceRaw ko (rfRemain lim) with
    | none => none
    | some (n, e) =>
      if 0 < n ∨ e = none then some ⟨n, e, .spliced⟩
      else some ⟨fb.1, fb.2, .fallback⟩
  else some ⟨fb.1, fb.2, .fallback⟩

/-- `PipeReader.WriteTo` from `src/pipes_linux.go` lines 233-244 with its
`writeTo` wrapper (lines 246-254): always an unbounded splice
(`splice(rc, w, 0)`), `handled` is `n > 0`, fallback is `io.Copy(w, r.fd)`. -/
def writeToGo (connOK : Bool) (ko : List KStep) (fb : Int × Option Err) : Option RFOut :=
  if connOK then
    match spliceRaw ko 0 with
    | none => none
    | some (n, e) =>
      if 0 < n ∨ e = none then some ⟨n, e, .spliced⟩
      else some ⟨fb.1, fb.2, .fallback⟩
  else some ⟨fb.1, fb.2, .fallback⟩

/-- Adequacy of a kernel oracle for a bounded transfer: every entry is a
positive chunk, a would-block, or a signal interruption (a source that
holds data and fails in no other way). -/
def KAdequate (ko : List KStep) : Prop :=
  ∀ s ∈ ko, (∃ k, s = KStep.chunk k ∧ 1 ≤ k) ∨ s = KStep.eagain ∨ s = KStep.eintr

/-- Total number of bytes the oracle's productive entries offer. -/
def prodSum (ko : List KStep) : Nat :=
  match ko with
  | [] => 0
  | .chunk k :: rest => k + prodSum rest
  | _ :: rest => prodSum rest

/-- Models the buffered fallback `io.Copy(w.fd, r)` where `r` is an
`io.LimitedReader{R: file, N: n}` over a regular file holding `avail`
bytes, and the destination pipe accepts all writes (external collaborators:
Go standard library `io.Copy`/`io.LimitedReader` and regular-file reads).
Each iteration reads `min 32768 n` bytes capped by the limit, the file
returns up to `avail`; a zero read with the limit exhausted is `io.EOF`,
which `io.Copy` reports as success. -/
def ioCopyLR : Nat → Nat → Nat → Nat × Option Err
  | 0, _, _ => (0, some (.other 0))
  | fuel + 1, n, avail =>
    if n = 0 then (0, none)
    else
      let req := min 32768 n
      let nr := min req avail
      if nr = 0 then (0, none)
      else
        let r := ioCopyLR fuel (n - nr) (avail - nr)
        (nr + r.1, r.2)

/-- The fallback result for a limit-`n` copy from a file holding `avail`
bytes, with enough fuel for the loop to run to completion. -/
def ioCopyFB (n avail : Nat) : Int × Option Err :=
  let r := ioCopyLR (n + 1) n avail
  ((r.1 : Int), r.2)

/-! ## OpenFifo flag handling (`src/pipes_linux.go` lines 85-129) -/

/-- `os.O_RDONLY` on linux/amd64: the zero value. -/
def O_RDONLY : Nat := 0
/-- `os.O_WRONLY` on linux/amd64. -/
def O_WRONLY : Nat := 1
/-- `os.O_RDWR` on linux/amd64. -/
def O_RDWR : Nat := 2
/-- `os.O_CREATE` (= `syscall.O_CREAT`, octal `0100`) on linux/amd64. -/
def O_CREATE : Nat := 64

/-- The flag normalization of `OpenFifo` lines 86-88 and 101: if the flag
contains none of `O_RDWR`/`O_RDONLY`/`O_WRONLY` (the `O_RDONLY` test is
against the zero value, hence always true), `O_RDWR` is or-ed in; then
`O_CREATE` is cleared (`flag &= ^os.O_CREATE`, written here as xor with the
common bits).  The stat/mkfifo step (lines 90-99) and the blocking-avoidance
pre-open (lines 103-115) touch the filesystem only and do not change which
ends a successful `OpenFifo` produces. -/
def openFifoFlag (flag : Nat) : Nat :=
  let f1 := if flag &&& O_RDWR = 0 ∧ flag &&& O_RDONLY = 0 ∧ flag &&& O_WRONLY = 0
    then flag ||| O_RDWR else flag
  f1 ^^^ (f1 &&& O_CREATE)

/-- Which ends `OpenFifo` wraps around the single opened descriptor `fd`
(lines 117-128): a `PipeReader` when the final flag has `O_RDONLY` (never,
as it is zero) or `O_RDWR`; a `PipeWriter` when it has `O_WRONLY` or
`O_RDWR`. -/
def openFifoEnds (flag : Nat) (fd : Nat) : Option Nat × Option Nat :=
  let f := openFifoFlag flag
  (if f &&& O_RDONLY ≠ 0 ∨ f &&& O_RDWR ≠ 0 then some fd else none,
   if f &&& O_WRONLY ≠ 0 ∨ f &&& O_RDWR ≠ 0 then some fd else none)

/-! ## The fan-out `Copier` (`src/pipes_linux_test.go` lines 409-625) -/

/-- `Copier.doTee` (lines 601-625): one `wrc.Write` callback invocation —
the callback always returns `true`, so `tee` is attempted exactly once with
budget `total - written` (`written` starts at 0); `n > 0` accumulates, and
a zero move with no error becomes `io.EOF`.  `none` means the single `tee`
call never returned (oracle exhausted). -/
def doTee (ko : List KStep) (total : Int) : Option (Int × Option Err) :=
  match (tee ko total).1 with
  | none => none
  | some (n, e) =>
    let written := if 0 < n then n else 0
    some (written, if n = 0 ∧ e = none then some Err.eof else e)

/-- The `wrc.Write` retry loop of `Copier.doSplice` (lines 570-599): each
callback invocation runs `splice` with budget `total - written` on one
kernel oracle from the list; on `EAGAIN` with `total > 0 && written <
total` the callback returns `false` and is re-invoked after write
readiness; otherwise a zero move with no error becomes `io.EOF` and the
accumulated count is returned. -/
def doSpliceGo : List (List KStep) → Int → Int → Option (Int × Option Err)
  | [], _, _ => none
  | ko :: rest, total, written =>
    match (splice ko (total - written)).1 with
    | none => none
    | some (n, e) =>
      let written' := if 0 < n then written + n else written
      if e = some Err.eagain ∧ 0 < total ∧ written' < total then
        doSpliceGo rest total written'
      else some (written', if n = 0 ∧ e = none then some Err.eof else e)

/-- `Copier.doSplice` (lines 570-599), starting with `written = 0`. -/
def doSplice (kos : List (List KStep)) (total : Int) : Option (Int × Option Err) :=
  doSpliceGo kos total 0

/-- Outcome of the per-writer loop of one fan-out pass (`Copier.doCopy`
lines 521-545): indices marked for eviction in order, the final coupling
`total`, the recorded per-writer results (bytes moved, error) in writer
order, and the writer index at which a context cancellation was observed
(if any — the loop then stops). -/
structure PassOut where
  evict : List Nat
  total : Int
  results : List (Int × Option Err)
  canceledAt : Option Nat
  deriving DecidableEq, Repr

/-- The `for i, wrc := range c.writers` loop of `Copier.doCopy` (lines
524-545), with `len` writers, iterating `k` remaining writers starting at
index `i`: check `ctx.Err()` first; the last index uses `doSplice`, the
others `doTee`; a writer is marked for eviction when its transfer errs or
when `total > 0 && n < total`; index 0, when its `doTee` neither errs nor
falls short, establishes `total = n`.  `teeOr i` is writer `i`'s kernel
oracle, `spliceOr` the oracle list for the last writer's retry loop.
`none` means some transfer blocked forever. -/
def passGo (len : Nat) (cancelW : Nat → Bool) (teeOr : Nat → List KStep)
    (spliceOr : List (List KStep)) :
    Nat → Nat → Int → List Nat → List (Int × Option Err) → Option PassOut
  | 0, _, total, evict, results => some ⟨evict, total, results, none⟩
  | k + 1, i, total, evict, results =>
    if cancelW i then some ⟨evict, total, results, some i⟩
    else if i = len - 1 then
      match doSplice spliceOr total with
      | none => none
      | some (n, e) =>
        let evict' := if e ≠ none ∨ (0 < total ∧ n < total) then evict ++ [i] else evict
        passGo len cancelW teeOr spliceOr k (i + 1) total evict' (results ++ [(n, e)])
    else
      match doTee (teeOr i) total with
      | none => none
      | some (n, e) =>
        if e ≠ none ∨ (0 < total ∧ n < total) then
          passGo len cancelW teeOr spliceOr k (i + 1) total (evict ++ [i]) (results ++ [(n, e)])
        else
          passGo len cancelW teeOr spliceOr k (i + 1) (if i = 0 then n else total) evict
            (results ++ [(n, e)])

/-- The whole per-writer loop of one pass over `len` writers. -/
def passWriters (len : Nat) (cancelW : Nat → Bool) (teeOr : Nat → List KStep)
    (spliceOr : List (List KStep)) : Option PassOut :=
  passGo len cancelW teeOr spliceOr len 0 0 [] []

/-- `append(c.writers[:i-n], c.writers[i-n+1:]...)`: remove the element at
index `i` (Go append of the two slices). -/
def removeAt {α : Type} (l : List α) (i : Nat) : List α :=
  l.take i ++ l.drop (i + 1)

/-- The eviction loop of `Copier.doCopy` (lines 550-552):
`for n, i := range evict { c.writers = append(c.writers[:i-n], c.writers[i-n+1:]...) }`,
`n` being the position within `evict`. -/
def evictGo {α : Type} : List α → List Nat → Nat → List α
  | l, [], _ => l
  | l, i :: is, n => evictGo (removeAt l (i - n)) is (n + 1)

/-- The eviction removal as the source performs it. -/
def evictLoop {α : Type} (l : List α) (evict : List Nat) : List α :=
  evictGo l evict 0

/-- From the spec's words ("removed from DestinationSet via a stable filter
keeping only destinations not marked faulty this pass"): keep, in order,
exactly the elements whose index is not marked, scanning from index `j`. -/
def stableFilterIdx {α : Type} : List α → Nat → List Nat → List α
  | [], _, _ => []
  | a :: l, j, ev =>
    if j ∈ ev then stableFilterIdx l (j + 1) ev else a :: stableFilterIdx l (j + 1) ev

/-- From the spec's words: the stable filter of a destination list by a set
of marked indices. -/
def stableFilter {α : Type} (l : List α) (ev : List Nat) : List α :=
  stableFilterIdx l 0 ev

/-- `Copier.doCopy` (lines 502-561): on entry, an observed cancellation
overwrites `closedErr` and nothing runs; otherwise the writer loop runs
inside `c.r.Read` (whose first callback invocation returns `false` to wait
for read readiness), the eviction loop updates the writer list, and the
error returned by `c.r.Read` (`readErr`, from the readiness layer of the
source) is recorded in `closedErr` only if `closedErr` is still nil.
Result: the writer list after eviction, the new `closedErr`, and the
per-writer results. -/
def doCopy {α : Type} (ws : List α) (cancelEntry : Bool) (cancelW : Nat → Bool)
    (teeOr : Nat → List KStep) (spliceOr : List (List KStep))
    (readErr : Option Err) (closedErr0 : Option Err) :
    Option (List α × Option Err × List (Int × Option Err)) :=
  if cancelEntry then some (ws, some Err.canceled, [])
  else
    match passWriters ws.length cancelW teeOr spliceOr with
    | none => none
    | some p =>
      let ws' := evictLoop ws p.evict
      let closed1 := if p.canceledAt ≠ none then some Err.canceled else closedErr0
      let closed2 := if readErr ≠ none ∧ closed1 = none then readErr else closed1
      some (ws', closed2, p.results)

/-- The shared `Copier` state (lines 447-455): the worker-owned writer
list, the pending-additions queue, and `closedErr`.  Writers are abstract
identifiers. -/
structure CopierSt where
  writers : List Nat
  pending : List Nat
  closedErr : Option Err
  deriving DecidableEq, Repr

/-- `Copier.Add` (lines 481-500): if `closedErr` is set, return it;
otherwise append the writer's conn to `pending` and signal the worker.
(`Add` never consults the cancellation context; the `SyscallConn`
derivation is modelled as succeeding.) -/
def addGo (s : CopierSt) (w : Nat) : CopierSt × Option Err :=
  match s.closedErr with
  | some e => (s, some e)
  | none => ({ s with pending := s.pending ++ [w] }, none)

/-- One observable step of the copier worker. -/
inductive RunStep where
  | halted (finalErr : Option Err)
  | passed (s : CopierSt) (results : List (Int × Option Err))
  | stuck
  deriving Repr

/-- One iteration of `Copier.run` (lines 457-479) after the condition
variable wait: if `closedErr` is set or the context is cancelled, record
`ctx.Err()` into a nil `closedErr` and halt — no further pass runs;
otherwise merge `pending` into `writers` and perform `doCopy`.
`ctxCancelled` is the cancellation status observed at the loop head,
`cancelEntry`/`cancelW` the statuses observed at `doCopy`'s later check
points. -/
def runIter (s : CopierSt) (ctxCancelled : Bool) (cancelEntry : Bool) (cancelW : Nat → Bool)
    (teeOr : Nat → List KStep) (spliceOr : List (List KStep)) (readErr : Option Err) : RunStep :=
  if s.closedErr ≠ none ∨ ctxCancelled then
    .halted (if s.closedErr = none then some Err.canceled else s.closedErr)
  else
    match doCopy (s.writers ++ s.pending) cancelEntry cancelW teeOr spliceOr readErr none with
    | none => .stuck
    | some (ws', ce, results) => .passed ⟨ws', [], ce⟩ results

/-! ## Concrete kernel oracles used by witnesses and counterexamples -/

def passEvicts (out : Nat → Int × Option Err) (total : Int) (j : Nat) : Bool :=
  decide ((out j).2 ≠ none ∨ (0 < total ∧ (out j).1 < total))

def teeOrW : Nat → List KStep := fun i =>
  if i = 0 then [KStep.chunk 3, KStep.eof] else [KStep.chunk 3]

def spliceOrW : List (List KStep) := [[KStep.chunk 2, KStep.eagain], [KStep.chunk 1]]

def outW : Nat → Int × Option Err := fun _ => (3, none)

def teeOrC2 : Nat → List KStep := fun i =>
  if i = 0 then [KStep.chunk 3, KStep.eof] else [KStep.chunk 1, KStep.eagain, KStep.chunk 2]

def spliceOrC2 : List (List KStep) := [[KStep.chunk 2, KStep.eagain], [KStep.chunk 1]]

theorem KAdequate_cons {s : KStep} {ko : List KStep} (h : KAdequate (s :: ko)) : KAdequate ko :=
  fun x hx => h x (List.mem_cons_of_mem _ hx)

theorem spliceCore_done (noEnd : Bool) (ko : List KStep) (remain copied : Int) (sErr : Option Err)
    (h : remain ≤ 0) : spliceCore noEnd ko remain copied sErr = (some (copied, remain, sErr), ko) := by
  cases ko <;> simp [spliceCore, h]

theorem prodSum_chunk (k : Nat) (rest : List KStep) :
    prodSum (KStep.chunk k :: rest) = k + prodSum rest := rfl

theorem prodSum_eagain (rest : List KStep) : prodSum (KStep.eagain :: rest) = prodSum rest := rfl

theorem prodSum_eintr (rest : List KStep) : prodSum (KStep.eintr :: rest) = prodSum rest := rfl

theorem spliceCore_adequate :
    ∀ (ko : List KStep), KAdequate ko →
    ∀ (remain copied : Int) (sErr : Option Err), 0 < remain → remain ≤ (prodSum ko : Int) →
    (∃ rest, spliceCore false ko remain copied sErr = (some (copied + remain, 0, none), rest)) ∨
    (∃ d rest, 0 ≤ d ∧ d < remain ∧
      spliceCore false ko remain copied sErr = (some (copied + d, remain - d, some Err.eagain), rest) ∧
      KAdequate rest ∧ remain - d ≤ (prodSum rest : Int) ∧ rest.length < ko.length) := by
  intro ko
  induction ko with
  | nil =>
    intro _ remain _ _ h1 h2
    exfalso
    simp [prodSum] at h2
    omega
  | cons s rest ih =>
    intro had remain copied sErr h1 h2
    have hrest : KAdequate rest := KAdequate_cons had
    rcases had s (List.mem_cons_self _ _) with ⟨k, rfl, hk⟩ | rfl | rfl
    · -- productive chunk
      have hk1 : (1 : Int) ≤ (k : Int) := by exact_mod_cast hk
      have hsum : remain ≤ (k : Int) + (prodSum rest : Int) := by
        rw [prodSum_chunk] at h2
        push_cast at h2
        omega
      have hk0 : ¬ (k = 0) := by omega
      have hkpos : 0 < k := by omega
      rcases le_total (k : Int) remain with hle | hge
      · -- the chunk is fully consumed
        have hmr : min (k : Int) remain = (k : Int) := min_eq_left hle
        have hstep : spliceCore false (KStep.chunk k :: rest) remain copied sErr =
            spliceCore false rest (remain - (k : Int)) (copied + (k : Int)) none := by
          simp [spliceCore, spliceSys, not_le.mpr h1, hmr, hk0, hkpos]
        by_cases hz : remain - (k : Int) ≤ 0
        · have hkr : (k : Int) = remain := by omega
          left
          refine ⟨rest, ?_⟩
          rw [hstep, spliceCore_done _ _ _ _ _ (by omega)]
          have e1 : copied + (k : Int) = copied + remain := by omega
          have e2 : remain - (k : Int) = 0 := by omega
          rw [e1, e2]
        · have h1' : 0 < remain - (k : Int) := by omega
          have h2' : remain - (k : Int) ≤ (prodSum rest : Int) := by omega
          rcases ih hrest (remain - (k : Int)) (copied + (k : Int)) none h1' h2' with
            ⟨rest', heq⟩ | ⟨d', rest', hd0, hdlt, heq, hadr, hsum', hlen⟩
          · left
            refine ⟨rest', ?_⟩
            rw [hstep, heq]
            have e1 : copied + (k : Int) + (remain - (k : Int)) = copied + remain := by ring
            rw [e1]
          · right
            refine ⟨(k : Int) + d', rest', by omega, by omega, ?_, hadr, by omega, ?_⟩
            · rw [hstep, heq]
              have e1 : copied + (k : Int) + d' = copied + ((k : Int) + d') := by ring
              have e2 : remain - (k : Int) - d' = remain - ((k : Int) + d') := by ring
              rw [e1, e2]
            · simp only [List.length_cons]
              omega
      · -- the chunk covers the whole budget: the loop exits with remain = 0
        have hmr : min (k : Int) remain = remain := min_eq_right hge
        have hne0 : ¬ (remain = 0) := by omega
        have hstep : spliceCore false (KStep.chunk k :: rest) remain copied sErr =
            spliceCore false rest (remain - remain) (copied + remain) none := by
          simp [spliceCore, spliceSys, not_le.mpr h1, hmr, hne0, h1]
        left
        refine ⟨rest, ?_⟩
        rw [hstep, spliceCore_done _ _ _ _ _ (by omega)]
        have e1 : remain - remain = (0 : Int) := by ring
        rw [e1]
    · -- would-block
      right
      refine ⟨0, rest, le_refl 0, h1, ?_, hrest, ?_, by simp⟩
      · have : spliceCore false (KStep.eagain :: rest) remain copied sErr =
            (some (copied, remain, some Err.eagain), rest) := by
          simp [spliceCore, spliceSys, not_le.mpr h1]
        rw [this]
        norm_num
      · rw [prodSum_eagain] at h2
        omega
    · -- signal interruption
      have hstep : spliceCore false (KStep.eintr :: rest) remain copied sErr =
          spliceCore false rest remain copied (some Err.eintr) := by
        simp [spliceCore, spliceSys, not_le.mpr h1]
      have h2' : remain ≤ (prodSum rest : Int) := by rw [prodSum_eintr] at h2; omega
      rcases ih hrest remain copied (some Err.eintr) h1 h2' with
        ⟨rest', heq⟩ | ⟨d', rest', hd0, hdlt, heq, hadr, hsum', hlen⟩
      · left; exact ⟨rest', by rw [hstep, heq]⟩
      · right
        refine ⟨d', rest', hd0, hdlt, by rw [hstep, heq], hadr, hsum', ?_⟩
        simp only [List.length_cons]
        omega

theorem spliceRawGo_adequate :
    ∀ (fuel : Nat) (ko : List KStep) (remain copied : Int) (sErr : Option Err),
    KAdequate ko → 0 < remain → remain ≤ (prodSum ko : Int) → ko.length < fuel →
    spliceRawGo false fuel ko remain copied sErr = some (copied + remain, none) := by
  intro fuel
  induction fuel with
  | zero => intro ko _ _ _ _ _ _ hf; exact absurd hf (by omega)
  | succ fuel ih =>
    intro ko remain copied sErr had h1 h2 hf
    rcases spliceCore_adequate ko had remain copied sErr h1 h2 with
      ⟨rest, heq⟩ | ⟨d, rest, hd0, hdlt, heq, hadr, hsum, hlen⟩
    · simp [spliceRawGo, heq]
    · have hr : ¬ (remain - d = 0) := by omega
      have hrw : spliceRawGo false (fuel + 1) ko remain copied sErr =
          spliceRawGo false fuel rest (remain - d) (copied + d) (some Err.eagain) := by
        simp [spliceRawGo, heq, hr]
      rw [hrw, ih rest (remain - d) (copied + d) (some Err.eagain) hadr (by omega) hsum (by omega)]
      have e1 : copied + d + (remain - d) = copied + remain := by ring
      rw [e1]

theorem spliceRaw_adequate (ko : List KStep) (N : Nat) (had : KAdequate ko)
    (hsum : N ≤ prodSum ko) (hpos : 0 < N) :
    spliceRaw ko (N : Int) = some ((N : Int), none) := by
  have hne : ¬ ((N : Int) = 0) := by exact_mod_cast Nat.pos_iff_ne_zero.mp hpos
  have h := spliceRawGo_adequate (ko.length + 1) ko (N : Int) 0 none had
    (by exact_mod_cast hpos) (by exact_mod_cast hsum) (by omega)
  simpa [spliceRaw, hne] using h

theorem ioCopyLR_exact :
    ∀ (fuel n avail : Nat), n ≤ avail → n < fuel → ioCopyLR fuel n avail = (n, none) := by
  intro fuel
  induction fuel with
  | zero => intro n _ _ hf; exact absurd hf (by omega)
  | succ fuel ih =>
    intro n avail hna hf
    by_cases hn : n = 0
    · simp [ioCopyLR, hn]
    · have hreq : min 32768 n ≤ n := min_le_right _ _
      have hpos : 0 < min 32768 n := by omega
      have hnr : min (min 32768 n) avail = min 32768 n := min_eq_left (by omega)
      have hne : ¬ (min (min 32768 n) avail = 0) := by omega
      have hrec := ih (n - min 32768 n) (avail - min 32768 n) (by omega) (by omega)
      simp only [ioCopyLR, hn, if_false, hnr, hne, if_neg hne, hrec]
      simp
      omega

/-- C1: for every bounded transfer of N bytes through `PipeWriter.ReadFrom` with an
`io.LimitedReader` of limit N over a source holding at least N bytes (an adequate
kernel oracle offering at least N bytes on the splice path; a file with at least N
bytes on the buffered path), the returned byte count equals N exactly and the
returned error is nil, on both the zero-copy splice path and the `io.Copy`
fallback path. -/
theorem bridge_bounded_transfer_exact (N : Nat) (ko : List KStep) (avail : Nat)
    (fb : Int × Option Err) (had : KAdequate ko) (hsum : N ≤ prodSum ko) (hav : N ≤ avail) :
    (readFromGo (some (N : Int)) true ko fb).map (fun o => (o.n, o.err)) = some ((N : Int), none) ∧
    (readFromGo (some (N : Int)) false ko (ioCopyFB N avail)).map (fun o => (o.n, o.err)) =
      some ((N : Int), none) := by
  by_cases hz : N = 0
  · subst hz
    constructor <;> simp [readFromGo]
  · have hne : ¬ ((some (N : Int) : Option Int) = some 0) := by
      simp
      exact_mod_cast hz
    have hsp := spliceRaw_adequate ko N had hsum (Nat.pos_of_ne_zero hz)
    constructor
    · have hNpos : (0 : Int) < (N : Int) := by exact_mod_cast Nat.pos_of_ne_zero hz
      simp [readFromGo, hne, rfRemain, hsp, hNpos]
    · have hfb : ioCopyFB N avail = ((N : Int), none) := by
        simp [ioCopyFB, ioCopyLR_exact (N + 1) N avail hav (by omega)]
      simp [readFromGo, hne, hfb]

theorem spliceCore_eagain (noEnd : Bool) (rest : List KStep) (remain copied : Int)
    (sErr : Option Err) (h : 0 < remain) :
    spliceCore noEnd (KStep.eagain :: rest) remain copied sErr =
      (some (copied, remain, some Err.eagain), rest) := by
  simp [spliceCore, spliceSys, not_le.mpr h]

theorem spliceCore_eintr (noEnd : Bool) (rest : List KStep) (remain copied : Int)
    (sErr : Option Err) (h : 0 < remain) :
    spliceCore noEnd (KStep.eintr :: rest) remain copied sErr =
      spliceCore noEnd rest remain copied (some Err.eintr) := by
  simp [spliceCore, spliceSys, not_le.mpr h]

theorem spliceCore_eof (noEnd : Bool) (rest : List KStep) (remain copied : Int)
    (sErr : Option Err) (h : 0 < remain) :
    spliceCore noEnd (KStep.eof :: rest) remain copied sErr =
      (some (copied, remain, none), rest) := by
  simp [spliceCore, spliceSys, not_le.mpr h]

theorem spliceCore_fail (noEnd : Bool) (rest : List KStep) (remain copied : Int)
    (sErr : Option Err) (e0 : Err) (h : 0 < remain) (he : ¬ (e0 = Err.eintr)) :
    spliceCore noEnd (KStep.fail e0 :: rest) remain copied sErr =
      (some (copied, remain, some e0), rest) := by
  simp [spliceCore, spliceSys, not_le.mpr h, he]

theorem spliceCore_fail_eintr (noEnd : Bool) (rest : List KStep) (remain copied : Int)
    (sErr : Option Err) (h : 0 < remain) :
    spliceCore noEnd (KStep.fail Err.eintr :: rest) remain copied sErr =
      spliceCore noEnd rest remain copied (some Err.eintr) := by
  simp [spliceCore, spliceSys, not_le.mpr h]

theorem spliceCore_chunk_zero (noEnd : Bool) (rest : List KStep) (remain copied : Int)
    (sErr : Option Err) (h : 0 < remain) :
    spliceCore noEnd (KStep.chunk 0 :: rest) remain copied sErr =
      (some (copied, remain, none), rest) := by
  have hm0 : min (((0 : Nat) : Int)) remain = 0 := by rw [Nat.cast_zero]; exact min_eq_left h.le
  simp [spliceCore, spliceSys, not_le.mpr h, hm0]
  intro h2
  exact absurd h2 (by omega)

theorem spliceCore_chunk_le (noEnd : Bool) (rest : List KStep) (remain copied : Int)
    (sErr : Option Err) (k : Nat) (h : 0 < remain) (hk : 0 < k) (hle : (k : Int) ≤ remain) :
    spliceCore noEnd (KStep.chunk k :: rest) remain copied sErr =
      spliceCore noEnd rest (if noEnd then remain else remain - (k : Int))
        (copied + (k : Int)) none := by
  have hmr : min ((k : Int)) remain = (k : Int) := min_eq_left hle
  have hk0 : ¬ (k = 0) := by omega
  have hkpos : (0 : Int) < (k : Int) := by exact_mod_cast hk
  rcases noEnd with _ | _ <;>
    simp [spliceCore, spliceSys, not_le.mpr h, hmr, hk0, hkpos]

theorem spliceCore_chunk_ge (noEnd : Bool) (rest : List KStep) (remain copied : Int)
    (sErr : Option Err) (k : Nat) (h : 0 < remain) (hge : remain ≤ (k : Int)) :
    spliceCore noEnd (KStep.chunk k :: rest) remain copied sErr =
      spliceCore noEnd rest (if noEnd then remain else 0) (copied + remain) none := by
  have hmr : min ((k : Int)) remain = remain := min_eq_right hge
  have hne0 : ¬ (remain = 0) := by omega
  have hsub : remain - remain = (0 : Int) := by ring
  rcases noEnd with _ | _ <;>
    simp [spliceCore, spliceSys, not_le.mpr h, hmr, hne0, h, hsub]

theorem spliceCore_err (noEnd : Bool) :
    ∀ (ko : List KStep) (remain copied : Int) (sErr : Option Err)
      (c r : Int) (e : Option Err) (rest : List KStep),
    0 < remain → spliceCore noEnd ko remain copied sErr = (some (c, r, e), rest) →
    e ≠ some Err.eintr ∧ (r = 0 → e = none) ∧ 0 ≤ r := by
  intro ko
  induction ko with
  | nil =>
    intro remain copied sErr c r e rest h1 heq
    simp [spliceCore, not_le.mpr h1] at heq
  | cons s rest0 ih =>
    intro remain copied sErr c r e rest h1 heq
    rcases s with k | _ | _ | _ | e0
    · -- chunk
      rcases Nat.eq_zero_or_pos k with hk | hk
      · subst hk
        rw [spliceCore_chunk_zero _ _ _ _ _ h1] at heq
        simp only [Prod.mk.injEq, Option.some.injEq] at heq
        obtain ⟨⟨hc, hr, he⟩, -⟩ := heq
        subst hr
        subst he
        exact ⟨by simp, fun _ => rfl, by omega⟩
      · rcases le_total ((k : Int)) remain with hle | hge
        · rw [spliceCore_chunk_le _ _ _ _ _ _ h1 hk hle] at heq
          rcases noEnd with _ | _
          · simp only [Bool.false_eq_true, if_false] at heq
            by_cases hz : remain - (k : Int) ≤ 0
            · rw [spliceCore_done _ _ _ _ _ hz] at heq
              simp only [Prod.mk.injEq, Option.some.injEq] at heq
              obtain ⟨⟨hc, hr, he⟩, -⟩ := heq
              subst hr
              subst he
              exact ⟨by simp, fun _ => rfl, by omega⟩
            · exact ih _ _ _ _ _ _ _ (by omega) heq
          · simp only [if_true] at heq
            exact ih _ _ _ _ _ _ _ h1 heq
        · rw [spliceCore_chunk_ge _ _ _ _ _ _ h1 hge] at heq
          rcases noEnd with _ | _
          · simp only [Bool.false_eq_true, if_false] at heq
            rw [spliceCore_done _ _ _ _ _ (le_refl 0)] at heq
            simp only [Prod.mk.injEq, Option.some.injEq] at heq
            obtain ⟨⟨hc, hr, he⟩, -⟩ := heq
            subst hr
            subst he
            exact ⟨by simp, fun _ => rfl, by omega⟩
          · simp only [if_true] at heq
            exact ih _ _ _ _ _ _ _ h1 heq
    · -- eagain
      rw [spliceCore_eagain _ _ _ _ _ h1] at heq
      simp only [Prod.mk.injEq, Option.some.injEq] at heq
      obtain ⟨⟨hc, hr, he⟩, -⟩ := heq
      subst hr
      subst he
      exact ⟨by simp, fun hr0 => absurd hr0 (by omega), by omega⟩
    · -- eintr
      rw [spliceCore_eintr _ _ _ _ _ h1] at heq
      exact ih _ _ _ _ _ _ _ h1 heq
    · -- eof
      rw [spliceCore_eof _ _ _ _ _ h1] at heq
      simp only [Prod.mk.injEq, Option.some.injEq] at heq
      obtain ⟨⟨hc, hr, he⟩, -⟩ := heq
      subst hr
      subst he
      exact ⟨by simp, fun _ => rfl, by omega⟩
    · -- fail
      by_cases he0 : e0 = Err.eintr
      · subst he0
        rw [spliceCore_fail_eintr _ _ _ _ _ h1] at heq
        exact ih _ _ _ _ _ _ _ h1 heq
      · rw [spliceCore_fail _ _ _ _ _ _ h1 he0] at heq
        simp only [Prod.mk.injEq, Option.some.injEq] at heq
        obtain ⟨⟨hc, hr, he⟩, -⟩ := heq
        subst hr
        subst he
        exact ⟨by simp [he0], fun hr0 => absurd hr0 (by omega), by omega⟩

theorem spliceRawGo_err (noEnd : Bool) :
    ∀ (fuel : Nat) (ko : List KStep) (remain copied : Int) (sErr : Option Err)
      (c : Int) (e : Option Err),
    0 < remain → spliceRawGo noEnd fuel ko remain copied sErr = some (c, e) →
    e ≠ some Err.eagain ∧ e ≠ some Err.eintr := by
  intro fuel
  induction fuel with
  | zero =>
    intro ko remain copied sErr c e h1 heq
    simp [spliceRawGo] at heq
  | succ fuel ih =>
    intro ko remain copied sErr c e h1 heq
    rcases hsc : spliceCore noEnd ko remain copied sErr with ⟨res, rest⟩
    rcases res with _ | ⟨c', r', e'⟩
    · simp [spliceRawGo, hsc] at heq
    · obtain ⟨he1, he2, he3⟩ := spliceCore_err noEnd ko remain copied sErr c' r' e' rest h1 hsc
      by_cases hr0 : r' = 0
      · have : e' = none := he2 hr0
        subst this
        simp [spliceRawGo, hsc, hr0] at heq
        simp [← heq.2]
      · by_cases hea : e' = some Err.eagain
        · subst hea
          have hstep : spliceRawGo noEnd (fuel + 1) ko remain copied sErr =
              spliceRawGo noEnd fuel rest r' c' (some Err.eagain) := by
            simp [spliceRawGo, hsc, hr0]
          rw [hstep] at heq
          exact ih rest r' c' (some Err.eagain) c e (by omega) heq
        · simp [spliceRawGo, hsc, hr0, hea] at heq
          rw [← heq.2]
          exact ⟨hea, he1⟩

theorem spliceRaw_err :
    ∀ (ko : List KStep) (remain : Int) (c : Int) (e : Option Err),
    spliceRaw ko remain = some (c, e) → e ≠ some Err.eagain ∧ e ≠ some Err.eintr := by
  intro ko remain c e heq
  by_cases h0 : remain = 0
  · subst h0
    have h62 : (0 : Int) < 2 ^ 62 := by positivity
    simp only [spliceRaw, if_pos rfl] at heq
    exact spliceRawGo_err _ _ _ _ _ _ _ _ h62 (by simpa using heq)
  · rcases lt_or_gt_of_ne h0 with hneg | hpos
    · -- negative budget: the loop exits immediately with a nil error
      have hdone := spliceCore_done (decide (remain = 0)) ko remain 0 none (by omega)
      simp only [spliceRaw, if_neg h0] at heq
      rw [spliceRawGo, hdone] at heq
      simp [h0] at heq
      simp [← heq.2]
    · simp only [spliceRaw, if_neg h0] at heq
      exact spliceRawGo_err _ _ _ _ _ _ _ _ hpos heq

/-- C7: `PipeWriter.ReadFrom` and `PipeReader.WriteTo` never return EAGAIN or EINTR:
a completed RawConn splice never carries them out, and with a fallback copy whose
error is not one of them (the Go file/poller contract), every completed
`ReadFrom`/`WriteTo` result is free of them as well. -/
theorem bridge_no_transient_errors :
    (∀ (ko : List KStep) (remain c : Int) (e : Option Err),
      spliceRaw ko remain = some (c, e) → e ≠ some Err.eagain ∧ e ≠ some Err.eintr) ∧
    (∀ (lim : Option Int) (connOK : Bool) (ko : List KStep) (fb : Int × Option Err) (out : RFOut),
      fb.2 ≠ some Err.eagain → fb.2 ≠ some Err.eintr →
      readFromGo lim connOK ko fb = some out →
      out.err ≠ some Err.eagain ∧ out.err ≠ some Err.eintr) ∧
    (∀ (connOK : Bool) (ko : List KStep) (fb : Int × Option Err) (out : RFOut),
      fb.2 ≠ some Err.eagain → fb.2 ≠ some Err.eintr →
      writeToGo connOK ko fb = some out →
      out.err ≠ some Err.eagain ∧ out.err ≠ some Err.eintr) := by
  refine ⟨spliceRaw_err, ?_, ?_⟩
  · intro lim connOK ko fb out hfb1 hfb2 heq
    by_cases hlim : lim = some 0
    · simp [readFromGo, hlim] at heq
      simp [← heq]
    · rcases connOK with _ | _
      · simp [readFromGo, hlim] at heq
        rw [← heq]
        exact ⟨hfb1, hfb2⟩
      · simp only [readFromGo, if_neg hlim, if_true] at heq
        rcases hsp : spliceRaw ko (rfRemain lim) with _ | ⟨c, e⟩
        · rw [hsp] at heq; simp at heq
        · rw [hsp] at heq
          by_cases hcond : 0 < c ∨ e = none
          · simp only [if_pos hcond] at heq
            obtain ⟨h1, h2⟩ := spliceRaw_err ko (rfRemain lim) c e hsp
            simp only [Option.some.injEq] at heq
            subst heq
            exact ⟨h1, h2⟩
          · simp only [if_neg hcond] at heq
            simp only [Option.some.injEq] at heq
            subst heq
            exact ⟨hfb1, hfb2⟩
  · intro connOK ko fb out hfb1 hfb2 heq
    rcases connOK with _ | _
    · simp [writeToGo] at heq
      rw [← heq]
      exact ⟨hfb1, hfb2⟩
    · simp only [writeToGo, if_true] at heq
      rcases hsp : spliceRaw ko 0 with _ | ⟨c, e⟩
      · rw [hsp] at heq; simp at heq
      · rw [hsp] at heq
        by_cases hcond : 0 < c ∨ e = none
        · simp only [if_pos hcond] at heq
          obtain ⟨h1, h2⟩ := spliceRaw_err ko 0 c e hsp
          simp only [Option.some.injEq] at heq
          subst heq
          exact ⟨h1, h2⟩
        · simp only [if_neg hcond] at heq
          simp only [Option.some.injEq] at heq
          subst heq
          exact ⟨hfb1, hfb2⟩

/-- C8: a `PipeWriter.ReadFrom` whose reader is an `io.LimitedReader` with remaining
count exactly 0 returns byte count 0 and nil error through the fast path,
consulting neither the kernel oracle nor the fallback copy — no read from the
source, no write to the pipe. -/
theorem readFrom_zero_budget_noop (connOK : Bool) (ko : List KStep) (fb : Int × Option Err) :
    readFromGo (some 0) connOK ko fb = some ⟨0, none, RFPath.fast⟩ := by
  simp [readFromGo]

/-- C9: when the splice attempt inside `PipeWriter.ReadFrom` or `PipeReader.WriteTo`
moves at least one byte, its result is returned directly (`spliced` path); the
`io.Copy` fallback runs exactly when the splice moved zero bytes and reported an
error, so the two paths never both execute in one call. -/
theorem splice_result_direct_no_double_copy (lim : Option Int) (ko ko2 : List KStep)
    (fb : Int × Option Err) (n n2 : Int) (e e2 : Option Err)
    (hlim : ¬ (lim = some 0))
    (hs : spliceRaw ko (rfRemain lim) = some (n, e))
    (hs2 : spliceRaw ko2 0 = some (n2, e2)) :
    (0 < n → readFromGo lim true ko fb = some ⟨n, e, RFPath.spliced⟩) ∧
    (readFromGo lim true ko fb = some ⟨fb.1, fb.2, RFPath.fallback⟩ ↔ (¬ 0 < n ∧ e ≠ none)) ∧
    (0 < n2 → writeToGo true ko2 fb = some ⟨n2, e2, RFPath.spliced⟩) ∧
    (writeToGo true ko2 fb = some ⟨fb.1, fb.2, RFPath.fallback⟩ ↔ (¬ 0 < n2 ∧ e2 ≠ none)) := by
  refine ⟨?_, ?_, ?_, ?_⟩
  · intro hn
    simp [readFromGo, hlim, hs, hn]
  · by_cases hcond : 0 < n ∨ e = none
    · have : readFromGo lim true ko fb = some ⟨n, e, RFPath.spliced⟩ := by
        simp [readFromGo, hlim, hs, hcond]
      rw [this]
      constructor
      · intro hx
        simp at hx
      · intro hx
        exact absurd hcond (by tauto)
    · have : readFromGo lim true ko fb = some ⟨fb.1, fb.2, RFPath.fallback⟩ := by
        simp [readFromGo, hlim, hs, hcond]
      rw [this]
      push_neg at hcond
      simp [hcond]
  · intro hn2
    simp [writeToGo, hs2, hn2]
  · by_cases hcond : 0 < n2 ∨ e2 = none
    · have : writeToGo true ko2 fb = some ⟨n2, e2, RFPath.spliced⟩ := by
        simp [writeToGo, hs2, hcond]
      rw [this]
      constructor
      · intro hx
        simp at hx
      · intro hx
        exact absurd hcond (by tauto)
    · have : writeToGo true ko2 fb = some ⟨fb.1, fb.2, RFPath.fallback⟩ := by
        simp [writeToGo, hs2, hcond]
      rw [this]
      push_neg at hcond
      simp [hcond]

/-- C5: the splice transfer loop (`splice` in read_linux.go and the identical inner
loop of the RawConn `splice`), for every budget and state: on EINTR it retries
immediately with `copied` and `remain` unchanged; on zero bytes moved with no error
it stops, treating the outcome as source EOF (nil error, `splice` returns the
accumulated count); any other error is returned as-is with the accumulated count;
and a productive move accumulates into `copied` while decrementing `remain` only
when the budget is bounded (`noEnd = false`). -/
theorem splice_loop_contract (noEnd : Bool) (rest : List KStep) (remain copied : Int)
    (sErr : Option Err) (h : 0 < remain) :
    (spliceCore noEnd (KStep.eintr :: rest) remain copied sErr =
      spliceCore noEnd rest remain copied (some Err.eintr)) ∧
    (spliceCore noEnd (KStep.eof :: rest) remain copied sErr =
      (some (copied, remain, none), rest)) ∧
    (∀ e0 : Err, ¬ (e0 = Err.eintr) →
      spliceCore noEnd (KStep.fail e0 :: rest) remain copied sErr =
        (some (copied, remain, some e0), rest)) ∧
    (∀ k : Nat, 0 < k → (k : Int) ≤ remain →
      spliceCore noEnd (KStep.chunk k :: rest) remain copied sErr =
        spliceCore noEnd rest (if noEnd then remain else remain - (k : Int))
          (copied + (k : Int)) none) ∧
    (∀ r : Int, 0 ≤ r → (splice (KStep.eof :: rest) r).1 = some (0, none)) := by
  refine ⟨spliceCore_eintr _ _ _ _ _ h, spliceCore_eof _ _ _ _ _ h,
    fun e0 he0 => spliceCore_fail _ _ _ _ _ _ h he0,
    fun k hk hle => spliceCore_chunk_le _ _ _ _ _ _ h hk hle, ?_⟩
  intro r hr
  by_cases hr0 : r = 0
  · subst hr0
    have h62 : (0 : Int) < 2 ^ 62 := by positivity
    have he := spliceCore_eof true rest (2 ^ 62) 0 none h62
    norm_num at he
    simp [splice, he]
  · have he := spliceCore_eof false rest r 0 none (by omega)
    simp [splice, hr0, he]

/-- Witness for C5 at budget 5. -/
theorem splice_loop_contract_witness :
    (spliceCore false [KStep.eintr, KStep.eof] 5 0 none =
      spliceCore false [KStep.eof] 5 0 (some Err.eintr)) ∧
    (splice [KStep.eof] 5).1 = some (0, none) :=
  ⟨(splice_loop_contract false [KStep.eof] 5 0 none (by norm_num)).1,
   (splice_loop_contract false [KStep.eof] 5 0 none (by norm_num)).2.2.2.2 5 (by norm_num)⟩

theorem stableFilterIdx_nil_marks {α : Type} :
    ∀ (l : List α) (j : Nat), stableFilterIdx l j [] = l := by
  intro l
  induction l with
  | nil => intro j; simp [stableFilterIdx]
  | cons a l' ih => intro j; simp [stableFilterIdx, ih]

theorem stableFilterIdx_irrel {α : Type} :
    ∀ (l : List α) (j i : Nat) (ev : List Nat), i < j →
    stableFilterIdx l j (i :: ev) = stableFilterIdx l j ev := by
  intro l
  induction l with
  | nil => intro j i ev _; simp [stableFilterIdx]
  | cons a l' ih =>
    intro j i ev hij
    have hne : ¬ (j = i) := by omega
    by_cases hj : j ∈ ev
    · simp [stableFilterIdx, hne, hj, ih (j + 1) i ev (by omega)]
    · simp [stableFilterIdx, hne, hj, ih (j + 1) i ev (by omega)]

theorem removeAt_length {α : Type} (l : List α) (i : Nat) (h : i < l.length) :
    (removeAt l i).length = l.length - 1 := by
  simp [removeAt]
  omega

theorem stableFilterIdx_remove {α : Type} :
    ∀ (l : List α) (nn i : Nat) (is' : List Nat), nn ≤ i → i - nn < l.length →
    (∀ x ∈ is', i < x) →
    stableFilterIdx l nn (i :: is') = stableFilterIdx (removeAt l (i - nn)) (nn + 1) is' := by
  intro l
  induction l with
  | nil => intro nn i is' h1 h2 _; simp at h2
  | cons a l' ih =>
    intro nn i is' h1 h2 h3
    by_cases hin : i = nn
    · subst hin
      have hrm : removeAt (a :: l') (i - i) = l' := by simp [removeAt]
      rw [hrm]
      have hmem : i ∈ i :: is' := List.mem_cons_self _ _
      simp only [stableFilterIdx, if_pos hmem]
      exact stableFilterIdx_irrel l' (i + 1) i is' (by omega)
    · have hgt : nn < i := by omega
      have hnotin : ¬ (nn ∈ i :: is') := by
        simp only [List.mem_cons]
        push_neg
        exact ⟨by omega, fun hmem => absurd (h3 nn hmem) (by omega)⟩
      have hnotin2 : ¬ ((nn + 1) ∈ is') := fun hmem => absurd (h3 (nn + 1) hmem) (by omega)
      have hrm : removeAt (a :: l') (i - nn) = a :: removeAt l' (i - nn - 1) := by
        have hin : i - nn = (i - nn - 1) + 1 := by omega
        rw [hin]
        simp [removeAt]
      rw [hrm]
      simp only [stableFilterIdx, if_neg hnotin, if_neg hnotin2]
      have hsub : i - (nn + 1) = i - nn - 1 := by omega
      have := ih (nn + 1) i is' (by omega) (by simp at h2 ⊢; omega) h3
      rw [hsub] at this
      rw [this]

theorem evictGo_eq_stableFilterIdx {α : Type} :
    ∀ (is : List Nat) (l : List α) (nn : Nat), List.Sorted (· < ·) is →
    (∀ x ∈ is, nn ≤ x) → (∀ x ∈ is, x - nn < l.length) →
    evictGo l is nn = stableFilterIdx l nn is := by
  intro is
  induction is with
  | nil => intro l nn _ _ _; simp [evictGo, stableFilterIdx_nil_marks]
  | cons i is' ih =>
    intro l nn hsort hge hlt
    have hx : ∀ x ∈ is', i < x := fun x hmem => (List.sorted_cons.mp hsort).1 x hmem
    have hlen : i - nn < l.length := hlt i (List.mem_cons_self _ _)
    have hni : nn ≤ i := hge i (List.mem_cons_self _ _)
    rw [evictGo, stableFilterIdx_remove l nn i is' hni hlen hx]
    apply ih
    · exact (List.sorted_cons.mp hsort).2
    · intro x hmem
      have := hx x hmem
      omega
    · intro x hmem
      rw [removeAt_length l (i - nn) hlen]
      have h1 := hlt x (List.mem_cons_of_mem _ hmem)
      have h2 := hx x hmem
      omega

/-- C6: for every destination list and ascending list of in-range eviction indices,
the decrementing-offset removal loop of `doCopy` (`evictLoop`) produces exactly the
stable filter keeping the unmarked destinations in their original order. -/
theorem eviction_equals_stable_filter {α : Type} (l : List α) (ev : List Nat)
    (hsort : List.Sorted (· < ·) ev) (hlt : ∀ i ∈ ev, i < l.length) :
    evictLoop l ev = stableFilter l ev :=
  evictGo_eq_stableFilterIdx ev l 0 hsort (fun x _ => Nat.zero_le x)
    (fun x hx => by simpa using hlt x hx)

/-- Witness for C6 on a four-element list with two evictions. -/
theorem eviction_equals_stable_filter_witness :
    evictLoop [10, 20, 30, 40] [1, 3] = stableFilter [10, 20, 30, 40] [1, 3] :=
  eviction_equals_stable_filter [10, 20, 30, 40] [1, 3] (by decide) (by decide)

theorem and_two_pow_ne_zero (x i : Nat) : x &&& 2 ^ i ≠ 0 ↔ x.testBit i := by
  rw [Nat.and_two_pow]
  rcases h : x.testBit i <;> simp [h]

/-- C10: for every `OpenFifo` flag containing neither `os.O_RDWR` nor `os.O_WRONLY`
(which includes the `os.O_RDONLY` used by `Open`, since that flag is the zero
value and its bit test is vacuous), the fifo is opened read-write and both a
reader and a writer wrapping the same descriptor are produced. -/
theorem openFifo_default_rdwr (flag fd : Nat) (h2 : flag &&& O_RDWR = 0)
    (h1 : flag &&& O_WRONLY = 0) :
    openFifoFlag flag &&& O_RDWR ≠ 0 ∧ openFifoEnds flag fd = (some fd, some fd) ∧
    openFifoEnds O_RDONLY fd = (some fd, some fd) := by
  have hb : (openFifoFlag flag).testBit 1 = true := by
    simp only [openFifoFlag, O_RDWR, O_RDONLY, O_WRONLY, O_CREATE]
    rw [if_pos ⟨h2, Nat.and_zero flag, h1⟩]
    rw [Nat.testBit_xor, Nat.testBit_land, Nat.testBit_lor]
    have h64 : Nat.testBit 64 1 = false := by decide
    have h2' : Nat.testBit 2 1 = true := by decide
    simp [h64, h2']
  have hflag : openFifoFlag flag &&& O_RDWR ≠ 0 := by
    have hx : openFifoFlag flag &&& 2 ^ 1 ≠ 0 := (and_two_pow_ne_zero _ 1).mpr hb
    simpa [O_RDWR] using hx
  refine ⟨hflag, ?_, by simp [openFifoEnds, openFifoFlag, O_RDONLY, O_RDWR, O_WRONLY, O_CREATE]⟩
  simp [openFifoEnds, hflag]

/-- Witness for C10 at flag O_CREATE (contains neither O_RDWR nor O_WRONLY). -/
theorem openFifo_default_rdwr_witness :
    openFifoFlag 64 &&& O_RDWR ≠ 0 ∧ openFifoEnds 64 5 = (some 5, some 5) ∧
    openFifoEnds O_RDONLY 5 = (some 5, some 5) :=
  openFifo_default_rdwr 64 5 (by decide) (by decide)


theorem passGo_no_cancel (len : Nat) (teeOr : Nat → List KStep) (spliceOr : List (List KStep)) :
    ∀ (k i : Nat) (total : Int) (evict : List Nat) (results : List (Int × Option Err)) (p : PassOut),
    passGo len (fun _ => false) teeOr spliceOr k i total evict results = some p →
    p.canceledAt = none := by
  intro k
  induction k with
  | zero =>
    intro i total evict results p heq
    simp [passGo] at heq
    rw [← heq]
  | succ k ih =>
    intro i total evict results p heq
    by_cases hlast : i = len - 1
    · simp only [passGo, if_neg (by simp : ¬ (false = true)), if_pos hlast] at heq
      rcases hsp : doSplice spliceOr total with _ | ⟨n, e⟩
      · rw [hsp] at heq; simp at heq
      · rw [hsp] at heq
        exact ih _ _ _ _ _ heq
    · simp only [passGo, if_neg (by simp : ¬ (false = true)), if_neg hlast] at heq
      rcases hsp : doTee (teeOr i) total with _ | ⟨n, e⟩
      · rw [hsp] at heq; simp at heq
      · rw [hsp] at heq
        dsimp only at heq
        by_cases hbad : e ≠ none ∨ (0 < total ∧ n < total)
        · rw [if_pos hbad] at heq
          exact ih _ _ _ _ _ heq
        · rw [if_neg hbad] at heq
          exact ih _ _ _ _ _ heq

theorem passGo_run (len : Nat) (teeOr : Nat → List KStep) (spliceOr : List (List KStep))
    (out : Nat → Int × Option Err) (total : Int)
    (htee : ∀ j, 0 < j → j < len - 1 → doTee (teeOr j) total = some (out j))
    (hsp : doSplice spliceOr total = some (out (len - 1))) :
    ∀ (k i : Nat) (evict : List Nat) (results : List (Int × Option Err)),
    0 < i → i + k = len →
    passGo len (fun _ => false) teeOr spliceOr k i total evict results =
      some ⟨evict ++ (List.range' i k).filter (passEvicts out total), total,
        results ++ (List.range' i k).map out, none⟩ := by
  intro k
  induction k with
  | zero =>
    intro i evict results hi hik
    simp [passGo]
  | succ k ih =>
    intro i evict results hi hik
    by_cases hlast : i = len - 1
    · have hk0 : k = 0 := by omega
      subst hk0
      subst hlast
      rcases hout : out (len - 1) with ⟨n, e⟩
      rw [hout] at hsp
      simp only [passGo, if_neg (by simp : ¬ (false = true)), if_pos rfl, hsp]
      by_cases hbad : e ≠ none ∨ (0 < total ∧ n < total)
      · rw [if_pos hbad]
        have hpe : passEvicts out total (len - 1) = true := by
          simp only [passEvicts, hout]
          exact decide_eq_true hbad
        simp [passGo, List.range', hpe, hout]
      · rw [if_neg hbad]
        have hpe : passEvicts out total (len - 1) = false := by
          simp only [passEvicts, hout]
          exact decide_eq_false hbad
        simp [passGo, List.range', hpe, hout]
    · have hi1 : i < len - 1 := by omega
      rcases hout : out i with ⟨n, e⟩
      have ht := htee i hi hi1
      rw [hout] at ht
      simp only [passGo, if_neg (by simp : ¬ (false = true)), if_neg hlast, ht]
      have hrange : List.range' i (k + 1) = i :: List.range' (i + 1) k := by
        simp [List.range']
      by_cases hbad : e ≠ none ∨ (0 < total ∧ n < total)
      · rw [if_pos hbad]
        rw [ih (i + 1) (evict ++ [i]) (results ++ [(n, e)]) (by omega) (by omega)]
        have hpe : passEvicts out total i = true := by
          simp only [passEvicts, hout]
          exact decide_eq_true hbad
        simp [hrange, hpe, hout]
      · rw [if_neg hbad]
        have hizero : ¬ (i = 0) := by omega
        rw [if_neg hizero]
        rw [ih (i + 1) evict (results ++ [(n, e)]) (by omega) (by omega)]
        have hpe : passEvicts out total i = false := by
          simp only [passEvicts, hout]
          exact decide_eq_false hbad
        simp [hrange, hpe, hout]

theorem passGo_err_evict (len : Nat) (cW : Nat → Bool) (teeOr : Nat → List KStep)
    (spliceOr : List (List KStep)) :
    ∀ (k i : Nat) (total : Int) (evict : List Nat) (results : List (Int × Option Err)) (p : PassOut),
    passGo len cW teeOr spliceOr k i total evict results = some p →
    i = results.length →
    (∀ j r, results.get? j = some r → r.2 ≠ none → j ∈ evict) →
    (∀ j r, p.results.get? j = some r → r.2 ≠ none → j ∈ p.evict) := by
  intro k
  induction k with
  | zero =>
    intro i total evict results p heq hi hinv
    simp [passGo] at heq
    rw [← heq]
    exact hinv
  | succ k ih =>
    intro i total evict results p heq hi hinv
    by_cases hc : cW i
    · simp only [passGo, if_pos hc, Option.some.injEq] at heq
      rw [← heq]
      exact hinv
    · have hnc : ¬ (cW i = true) := by simpa using hc
      by_cases hlast : i = len - 1
      · simp only [passGo, if_neg hnc, if_pos hlast] at heq
        rcases hspr : doSplice spliceOr total with _ | ⟨n, e⟩
        · rw [hspr] at heq; simp at heq
        · rw [hspr] at heq
          dsimp only at heq
          refine ih (i + 1) total _ _ p heq (by simp [hi]) ?_
          intro j r hget hr2
          by_cases hj : j < results.length
          · rw [List.get?_append hj] at hget
            have hmem := hinv j r hget hr2
            by_cases hbad : e ≠ none ∨ (0 < total ∧ n < total)
            · rw [if_pos hbad]
              exact List.mem_append_left _ hmem
            · rw [if_neg hbad]
              exact hmem
          · have hjlen : j = results.length := by
              by_contra hne
              have : results.length + 1 ≤ j := by omega
              rw [List.get?_eq_none.mpr (by simp; omega)] at hget
              exact absurd hget (by simp)
            subst hjlen
            rw [List.get?_concat_length] at hget
            have hre : r = (n, e) := by simpa using hget.symm
            subst hre
            have he : e ≠ none := by simpa using hr2
            have hbad : e ≠ none ∨ (0 < total ∧ n < total) := Or.inl he
            rw [if_pos hbad]
            rw [hi]
            exact List.mem_append_right _ (by simp)
      · simp only [passGo, if_neg hnc, if_neg hlast] at heq
        rcases htr : doTee (teeOr i) total with _ | ⟨n, e⟩
        · rw [htr] at heq; simp at heq
        · rw [htr] at heq
          dsimp only at heq
          by_cases hbad : e ≠ none ∨ (0 < total ∧ n < total)
          · rw [if_pos hbad] at heq
            refine ih (i + 1) total _ _ p heq (by simp [hi]) ?_
            intro j r hget hr2
            by_cases hj : j < results.length
            · rw [List.get?_append hj] at hget
              exact List.mem_append_left _ (hinv j r hget hr2)
            · have hjlen : j = results.length := by
                by_contra hne
                rw [List.get?_eq_none.mpr (by simp; omega)] at hget
                exact absurd hget (by simp)
              subst hjlen
              rw [hi]
              exact List.mem_append_right _ (by simp)
          · rw [if_neg hbad] at heq
            have he : e = none := by
              push_neg at hbad
              exact hbad.1
            refine ih (i + 1) _ _ _ p heq (by simp [hi]) ?_
            intro j r hget hr2
            by_cases hj : j < results.length
            · rw [List.get?_append hj] at hget
              exact hinv j r hget hr2
            · have hjlen : j = results.length := by
                by_contra hne
                rw [List.get?_eq_none.mpr (by simp; omega)] at hget
                exact absurd hget (by simp)
              subst hjlen
              rw [List.get?_concat_length] at hget
              have hre : r = (n, e) := by simpa using hget.symm
              subst hre
              exact absurd (he ▸ hr2) (by simp)

theorem passGo_step_tee (len : Nat) (cW : Nat → Bool) (teeOr : Nat → List KStep)
    (spliceOr : List (List KStep)) (k i : Nat) (total : Int) (evict : List Nat)
    (results : List (Int × Option Err)) (n : Int) (e : Option Err)
    (hc : cW i = false) (hlast : ¬ (i = len - 1)) (ht : doTee (teeOr i) total = some (n, e)) :
    passGo len cW teeOr spliceOr (k + 1) i total evict results =
      if e ≠ none ∨ (0 < total ∧ n < total) then
        passGo len cW teeOr spliceOr k (i + 1) total (evict ++ [i]) (results ++ [(n, e)])
      else
        passGo len cW teeOr spliceOr k (i + 1) (if i = 0 then n else total) evict
          (results ++ [(n, e)]) := by
  simp only [passGo, hc, if_neg (by simp : ¬ (false = true)), if_neg hlast, ht]

/-- C2 (amended): in a fan-out pass with at least two destinations, when the first
destination tee-transfer completes without error moving `n0` bytes, `n0` becomes the
coupling count: every later destination is attempted with budget `n0` and is marked
for eviction exactly when its single attempt errs (would-block included) or falls
short of `n0`; only the last destination (`doSplice`) is re-attempted on would-block
while the count is positive and unmet, and a non-last destination (`doTee`) gets one
attempt whose would-block outcome is surfaced unchanged. -/
theorem copier_coupling_amended (len : Nat) (teeOr : Nat → List KStep)
    (spliceOr : List (List KStep)) (out : Nat → Int × Option Err) (n0 : Int)
    (hlen : 2 ≤ len)
    (h0 : doTee (teeOr 0) 0 = some (n0, none))
    (htee : ∀ j, 0 < j → j < len - 1 → doTee (teeOr j) n0 = some (out j))
    (hsp : doSplice spliceOr n0 = some (out (len - 1))) :
    (passWriters len (fun _ => false) teeOr spliceOr =
      some ⟨(List.range' 1 (len - 1)).filter (passEvicts out n0), n0,
        (n0, none) :: (List.range' 1 (len - 1)).map out, none⟩) ∧
    (∀ (ko : List KStep) (rest : List (List KStep)) (total written n : Int) (e : Option Err),
      (splice ko (total - written)).1 = some (n, e) → e = some Err.eagain → 0 < total →
      (if 0 < n then written + n else written) < total →
      doSpliceGo (ko :: rest) total written =
        doSpliceGo rest total (if 0 < n then written + n else written)) ∧
    (∀ (ko : List KStep) (total n : Int),
      (tee ko total).1 = some (n, some Err.eagain) →
      doTee ko total = some ((if 0 < n then n else 0), some Err.eagain)) := by
  refine ⟨?_, ?_, ?_⟩
  · obtain ⟨m, rfl⟩ : ∃ m, len = m + 1 := ⟨len - 1, by omega⟩
    have hm1 : m + 1 - 1 = m := by omega
    have hnl : ¬ ((0 : Nat) = m + 1 - 1) := by omega
    rw [passWriters]
    rw [passGo_step_tee (m + 1) (fun _ => false) teeOr spliceOr m 0 0 [] [] n0 none rfl hnl h0]
    rw [if_neg (by simp : ¬ ((none : Option Err) ≠ none ∨ (0 : Int) < 0 ∧ n0 < 0))]
    rw [if_pos rfl]
    simp only [List.nil_append, Nat.zero_add]
    rw [passGo_run (m + 1) teeOr spliceOr out n0 htee hsp m 1 [] [(n0, none)]
      (by omega) (by omega)]
    simp [hm1]
  · intro ko rest total written n e hspl he htot hlt
    simp only [doSpliceGo, hspl]
    rw [if_pos ⟨he, htot, hlt⟩]
  · intro ko total n ht
    simp only [doTee, ht]
    have hne : ¬ (n = 0 ∧ (some Err.eagain : Option Err) = none) := by simp
    rw [if_neg hne]




/-- Witness for the amended C2: three destinations, coupling count 3, the last retried once on would-block. -/
theorem copier_coupling_amended_witness :
    passWriters 3 (fun _ => false) teeOrW spliceOrW =
      some ⟨[], 3, [(3, none), (3, none), (3, none)], none⟩ := by
  have h := (copier_coupling_amended 3 teeOrW spliceOrW outW 3 (by norm_num) (by decide)
    (by
      intro j h1 h2
      have hj : j = 1 := by omega
      subst hj
      decide)
    (by decide)).1
  rw [h]
  decide



/-- C2 counterexample: with three destinations and a coupling count of 3 established
by the first, the second (non-last) destination would-blocks after moving 1 byte;
the code records `(1, EAGAIN)` for it, does not retry (the remaining `chunk 2` of
its oracle is never consumed), and evicts it — where the claim as stated says each
non-last destination is retried on would-block until it reaches the count or fails
with a non-retryable error. -/
theorem copier_coupling_retry_counterexample :
    passWriters 3 (fun _ => false) teeOrC2 spliceOrC2 =
      some ⟨[1], 3, [(3, none), (1, some Err.eagain), (3, none)], none⟩ ∧
    (1 : Int) < 3 ∧ teeOrC2 1 = [KStep.chunk 1, KStep.eagain, KStep.chunk 2] := by
  refine ⟨by decide, by norm_num, by decide⟩

/-- C3: an error writing to an individual destination only marks that destination for
eviction and is never recorded as the copier terminal error (`closedErr`) nor
surfaced through `Add`, while an error returned by the source read is recorded as
the terminal error, and a worker iteration that sees a recorded terminal error
halts without performing any further pass. -/
theorem copier_error_locality :
    (∀ (ws : List Nat) (teeOr : Nat → List KStep) (spliceOr : List (List KStep))
       (ws' : List Nat) (ce : Option Err) (res : List (Int × Option Err)),
      doCopy ws false (fun _ => false) teeOr spliceOr none none = some (ws', ce, res) →
      ce = none) ∧
    (∀ (ws : List Nat) (teeOr : Nat → List KStep) (spliceOr : List (List KStep)) (e : Err)
       (ws' : List Nat) (ce : Option Err) (res : List (Int × Option Err)),
      doCopy ws false (fun _ => false) teeOr spliceOr (some e) none = some (ws', ce, res) →
      ce = some e) ∧
    (∀ (s : CopierSt) (e : Err) (cc cE : Bool) (cW : Nat → Bool) (teeOr : Nat → List KStep)
       (spliceOr : List (List KStep)) (readErr : Option Err),
      s.closedErr = some e →
      runIter s cc cE cW teeOr spliceOr readErr = RunStep.halted (some e)) ∧
    (∀ (s : CopierSt) (w : Nat) (e : Err), (addGo s w).2 = some e → s.closedErr = some e) ∧
    (∀ (len : Nat) (teeOr : Nat → List KStep) (spliceOr : List (List KStep)) (p : PassOut)
       (j : Nat) (r : Int × Option Err),
      passWriters len (fun _ => false) teeOr spliceOr = some p →
      p.results.get? j = some r → r.2 ≠ none → j ∈ p.evict) := by
  refine ⟨?_, ?_, ?_, ?_, ?_⟩
  · intro ws teeOr spliceOr ws' ce res heq
    simp only [doCopy, if_neg (by simp : ¬ (false = true))] at heq
    rcases hp : passWriters ws.length (fun _ => false) teeOr spliceOr with _ | p
    · rw [hp] at heq; simp at heq
    · rw [hp] at heq
      have hca : p.canceledAt = none := passGo_no_cancel _ _ _ _ _ _ _ _ _ hp
      simp [hca] at heq
      exact heq.2.1.symm
  · intro ws teeOr spliceOr e ws' ce res heq
    simp only [doCopy, if_neg (by simp : ¬ (false = true))] at heq
    rcases hp : passWriters ws.length (fun _ => false) teeOr spliceOr with _ | p
    · rw [hp] at heq; simp at heq
    · rw [hp] at heq
      have hca : p.canceledAt = none := passGo_no_cancel _ _ _ _ _ _ _ _ _ hp
      simp [hca] at heq
      exact heq.2.1.symm
  · intro s e cc cE cW teeOr spliceOr readErr hclosed
    simp [runIter, hclosed]
  · intro s w e heq
    rcases hs : s.closedErr with _ | e'
    · simp [addGo, hs] at heq
    · simp [addGo, hs] at heq
      rw [heq]
  · intro len teeOr spliceOr p j r hpass hget hr2
    exact passGo_err_evict len (fun _ => false) teeOr spliceOr len 0 0 [] [] p hpass
      (by simp) (by simp) j r hget hr2

/-- Witness for C3: a recorded terminal error halts the worker; an erroring destination is in the evicted set. -/
theorem copier_error_locality_witness :
    runIter ⟨[], [], some (Err.other 1)⟩ false false (fun _ => false) (fun _ => []) [] none =
      RunStep.halted (some (Err.other 1)) ∧
    (1 : Nat) ∈ [1] := by
  constructor
  · exact copier_error_locality.2.2.1 ⟨[], [], some (Err.other 1)⟩ (Err.other 1) false false
      (fun _ => false) (fun _ => []) [] none rfl
  · exact copier_error_locality.2.2.2.2 3 teeOrC2 spliceOrC2
      ⟨[1], 3, [(3, none), (1, some Err.eagain), (3, none)], none⟩ 1 (1, some Err.eagain)
      (by decide) (by decide) (by decide)

/-- C4 counterexample: with the cancellation signal already fired (the worker's next
loop-head observation halts with the canceled error), an `Add` issued before the
worker has observed the cancellation still succeeds (returns nil), because `Add`
consults only `closedErr` and never the context — where the claim says every `Add`
after the signal returns the closed-state error. -/
theorem copier_cancellation_add_counterexample :
    (addGo ⟨[], [], none⟩ 7).2 = none ∧
    runIter ⟨[], [], none⟩ true false (fun _ => false) (fun _ => []) [] none =
      RunStep.halted (some Err.canceled) := by
  constructor <;> rfl

/-- C4 (amended): once the worker observes cancellation the closed-state error is
recorded and every subsequent `Add` returns it; a pass that begins after the
cancellation is observed delivers no bytes to any destination (empty results) and
records the canceled error; the per-destination cancellation check stops the pass
at that destination with no further transfers. An `Add` landing between the signal
and the worker's observation may still succeed (see the counterexample). -/
theorem copier_cancellation_amended :
    (∀ (s : CopierSt) (e : Err) (w : Nat), s.closedErr = some e → addGo s w = (s, some e)) ∧
    (∀ (α : Type) (ws : List α) (cW : Nat → Bool) (teeOr : Nat → List KStep)
       (spliceOr : List (List KStep)) (readErr : Option Err) (c0 : Option Err),
      doCopy ws true cW teeOr spliceOr readErr c0 = some (ws, some Err.canceled, [])) ∧
    (∀ (s : CopierSt) (cE : Bool) (cW : Nat → Bool) (teeOr : Nat → List KStep)
       (spliceOr : List (List KStep)) (readErr : Option Err),
      s.closedErr = none →
      runIter s true cE cW teeOr spliceOr readErr = RunStep.halted (some Err.canceled)) ∧
    (∀ (len : Nat) (cW : Nat → Bool) (teeOr : Nat → List KStep) (spliceOr : List (List KStep))
       (k i : Nat) (total : Int) (evict : List Nat) (results : List (Int × Option Err)),
      cW i = true →
      passGo len cW teeOr spliceOr (k + 1) i total evict results =
        some ⟨evict, total, results, some i⟩) := by
  refine ⟨?_, ?_, ?_, ?_⟩
  · intro s e w hclosed
    simp [addGo, hclosed]
  · intro α ws cW teeOr spliceOr readErr c0
    simp [doCopy]
  · intro s cE cW teeOr spliceOr readErr hclosed
    simp [runIter, hclosed]
  · intro len cW teeOr spliceOr k i total evict results hc
    simp [passGo, hc]

/-- Witness for the amended C4 at concrete copier states and passes. -/
theorem copier_cancellation_amended_witness :
    addGo ⟨[], [], some Err.canceled⟩ 3 = (⟨[], [], some Err.canceled⟩, some Err.canceled) ∧
    doCopy ([0, 1] : List Nat) true (fun _ => false) (fun _ => []) [] none none =
      some ([0, 1], some Err.canceled, []) ∧
    runIter ⟨[2], [], none⟩ true false (fun _ => false) (fun _ => []) [] none =
      RunStep.halted (some Err.canceled) ∧
    passGo 2 (fun _ => true) (fun _ => []) [] 1 0 0 [] [] = some ⟨[], 0, [], some 0⟩ :=
  ⟨copier_cancellation_amended.1 ⟨[], [], some Err.canceled⟩ Err.canceled 3 rfl,
   copier_cancellation_amended.2.1 Nat [0, 1] (fun _ => false) (fun _ => []) [] none none,
   copier_cancellation_amended.2.2.1 ⟨[2], [], none⟩ false (fun _ => false) (fun _ => []) [] none rfl,
   copier_cancellation_amended.2.2.2 2 (fun _ => true) (fun _ => []) [] 0 0 0 [] [] rfl⟩

/-- Witness for C1 at N = 3 with a retrying oracle and a 7-byte file. -/
theorem bridge_bounded_transfer_exact_witness :
    (readFromGo (some ((3 : Nat) : Int)) true [KStep.chunk 2, KStep.eintr, KStep.eagain, KStep.chunk 5]
      (0, none)).map (fun o => (o.n, o.err)) = some (((3 : Nat) : Int), none) ∧
    (readFromGo (some ((3 : Nat) : Int)) false [KStep.chunk 2, KStep.eintr, KStep.eagain, KStep.chunk 5]
      (ioCopyFB 3 7)).map (fun o => (o.n, o.err)) = some (((3 : Nat) : Int), none) :=
  bridge_bounded_transfer_exact 3 [KStep.chunk 2, KStep.eintr, KStep.eagain, KStep.chunk 5] 7 (0, none)
    (by
      intro s hs
      simp only [List.mem_cons, List.not_mem_nil, or_false] at hs
      rcases hs with rfl | rfl | rfl | rfl
      · exact Or.inl ⟨2, rfl, by omega⟩
      · exact Or.inr (Or.inr rfl)
      · exact Or.inr (Or.inl rfl)
      · exact Or.inl ⟨5, rfl, by omega⟩)
    (by decide) (by decide)

/-- Witness for C7 on a fatal-error splice, a bounded ReadFrom and an unbounded WriteTo. -/
theorem bridge_no_transient_errors_witness :
    ((some (Err.other 3) : Option Err) ≠ some Err.eagain ∧
      (some (Err.other 3) : Option Err) ≠ some Err.eintr) ∧
    (({ n := 3, err := none, path := RFPath.spliced } : RFOut).err ≠ some Err.eagain ∧
      ({ n := 3, err := none, path := RFPath.spliced } : RFOut).err ≠ some Err.eintr) ∧
    (({ n := 5, err := none, path := RFPath.spliced } : RFOut).err ≠ some Err.eagain ∧
      ({ n := 5, err := none, path := RFPath.spliced } : RFOut).err ≠ some Err.eintr) :=
  ⟨bridge_no_transient_errors.1 [KStep.fail (Err.other 3)] 5 0 (some (Err.other 3)) (by decide),
   bridge_no_transient_errors.2.1 (some 3) true [KStep.chunk 3] (0, none)
     ⟨3, none, RFPath.spliced⟩ (by decide) (by decide) (by decide),
   bridge_no_transient_errors.2.2 true [KStep.chunk 5, KStep.eagain, KStep.chunk 2, KStep.eof]
     (0, none) ⟨7, none, RFPath.spliced⟩ (by decide) (by decide) (by decide)⟩

/-- Witness for C9: a 3-byte splice returned directly; the fallback equivalence at both call sites. -/
theorem splice_result_direct_no_double_copy_witness :
    (readFromGo (some 3) true [KStep.chunk 3] (9, none) = some ⟨3, none, RFPath.spliced⟩) ∧
    (readFromGo (some 3) true [KStep.chunk 3] (9, none) = some ⟨9, none, RFPath.fallback⟩ ↔
      (¬ (0 : Int) < 3 ∧ (none : Option Err) ≠ none)) ∧
    (writeToGo true [KStep.chunk 5, KStep.eof] (9, none) = some ⟨5, none, RFPath.spliced⟩) ∧
    (writeToGo true [KStep.chunk 5, KStep.eof] (9, none) = some ⟨9, none, RFPath.fallback⟩ ↔
      (¬ (0 : Int) < 5 ∧ (none : Option Err) ≠ none)) := by
  have h := splice_result_direct_no_double_copy (some 3) [KStep.chunk 3] [KStep.chunk 5, KStep.eof]
    (9, none) 3 5 none none (by decide) (by decide) (by decide)
  exact ⟨h.1 (by norm_num), h.2.1, h.2.2.1 (by norm_num), h.2.2.2⟩
